import Mathlib

/-!
Shallow embedding of `src/ingredient_parser/en/parser.py`.

The module orchestrates an English ingredient-sentence parse: lazy loading
of a CRF model into a process-wide `TAGGER`, tagging, plural restoration,
a name-recovery heuristic (`guess_ingredient_name`), and hand-off to a
`PostProcessor`.  External collaborators (pycrfsuite, `PreProcessor`,
`PostProcessor`, `pluralise_units`, `group_consecutive_idx`) are either
abstract parameters of the embedding or, when the specification pins their
behaviour down, modelled from the spec.  Confidence scores are embedded as
rationals; the `0.2` threshold of the heuristic is `1/5`.
-/

namespace IngredientParser

/-- Kinds of Python exception relevant to `parser.py`: `RuntimeError`
(raised by `Tagger.info()` when no model is loaded) and any other error. -/
inductive PyErr : Type
  | runtimeError : PyErr
  | other : PyErr
deriving DecidableEq, Repr

/-- State of the process-wide `pycrfsuite.Tagger()` object `TAGGER`:
whether a model has been opened into it. -/
structure Tagger : Type where
  loaded : Bool
deriving DecidableEq, Repr

/-- Embedding of `TAGGER.info()`: succeeds when a model is loaded and
raises `RuntimeError` otherwise (the behaviour `load_model_if_not_loaded`
relies on, per its docstring). -/
def Tagger.info (t : Tagger) : Except PyErr Unit :=
  if t.loaded then Except.ok () else Except.error PyErr.runtimeError

/-- Embedding of `TAGGER.open(str(p))`: loading the bundled model artifact.
`modelOk` abstracts the file system: if the artifact is present and intact
the tagger ends up loaded, otherwise the load raises. -/
def Tagger.openModel (modelOk : Bool) : Except PyErr Tagger :=
  if modelOk then Except.ok { loaded := true } else Except.error PyErr.other

/-- Python control flow of a `try: body except RuntimeError: handler`
block: a `RuntimeError` from the body runs the handler, any other
exception propagates. -/
def tryExceptRuntimeError {α : Type} (body : Except PyErr α)
    (handler : Unit → Except PyErr α) : Except PyErr α :=
  match body with
  | Except.ok a => Except.ok a
  | Except.error PyErr.runtimeError => handler ()
  | Except.error e => Except.error e

/-- Embedding of `load_model_if_not_loaded`: probe `TAGGER.info()` and open
the model only when the probe raises `RuntimeError`.  The function returns
the tagger state after the call (the Python original mutates `TAGGER`). -/
def load_model_if_not_loaded (t : Tagger) (modelOk : Bool) :
    Except PyErr Tagger :=
  tryExceptRuntimeError (Except.map (fun _ => t) t.info)
    (fun _ => Tagger.openModel modelOk)

/-- Modelled from the spec: `group_consecutive_idx` (imported from
`ingredient_parser._common`, whose source is not part of the core) is
specified to "partition candidate positions into maximal runs of
consecutive indices".  On a strictly increasing index list it returns the
maximal runs, in order. -/
def group_consecutive_idx : List Nat → List (List Nat)
  | [] => []
  | i :: rest =>
    match group_consecutive_idx rest with
    | (j :: g) :: gs =>
      if i + 1 = j then (i :: j :: g) :: gs else [i] :: (j :: g) :: gs
    | gs => [i] :: gs

/-- Stable insertion of a group into a length-sorted list of groups: the
new element, originally to the left of everything in the list, is placed
before groups of equal length. -/
def insertByLen (g : List Nat) : List (List Nat) → List (List Nat)
  | [] => [g]
  | h :: t =>
    if g.length ≤ h.length then g :: h :: t else h :: insertByLen g t

/-- Embedding of Python `sorted(groups, key=len)`: a stable ascending sort
by group length (any stable ascending sort computes the same list as
Timsort does). -/
def sortedByLen : List (List Nat) → List (List Nat)
  | [] => []
  | h :: t => insertByLen h (sortedByLen t)

/-- Embedding of `name_scores` in `guess_ingredient_name`: the marginal
confidence of the NAME label at each position of `labels`
(`[TAGGER.marginal("NAME", i) for i, _ in enumerate(labels)]`).  The
oracle's marginal query is the explicit argument `marginal`. -/
def name_scores_of (marginal : String → Nat → ℚ) (labels : List String) :
    List ℚ :=
  (List.range labels.length).map (fun i => marginal "NAME" i)

/-- Embedding of `candidate_indices`: positions of `name_scores` whose
score is at least `0.2`. -/
def candidate_indices_of (marginal : String → Nat → ℚ)
    (labels : List String) : List Nat :=
  (List.range (name_scores_of marginal labels).length).filter
    (fun i => 1/5 ≤ (name_scores_of marginal labels).getD i 0)

/-- Embedding of `indices = sorted(groups, key=len)[0]`: the head of the
ascending stable sort of the maximal consecutive runs of the candidate
indices.  (The comment in the source says "Take longest group", but `[0]`
of an ascending sort is the shortest group.) -/
def selected_run (marginal : String → Nat → ℚ) (labels : List String) :
    List Nat :=
  (sortedByLen
    (group_consecutive_idx (candidate_indices_of marginal labels))).headD []

/-- Embedding of `guess_ingredient_name(labels, scores)`.  If no position
has NAME-confidence at least `0.2` the inputs are returned unchanged;
otherwise every position of the selected run gets label `"NAME"` and its
NAME-confidence as score. -/
def guess_ingredient_name (marginal : String → Nat → ℚ)
    (labels : List String) (scores : List ℚ) : List String × List ℚ :=
  if candidate_indices_of marginal labels = [] then (labels, scores)
  else
    (selected_run marginal labels).foldl
      (fun p i =>
        (p.1.set i "NAME",
         p.2.set i ((name_scores_of marginal labels).getD i 0)))
      (labels, scores)

/-- The three option flags of `parse_ingredient_en` / `inspect_parser_en`. -/
structure Opts : Type where
  discard_isolated_stop_words : Bool
  string_units : Bool
  imperial_units : Bool
deriving DecidableEq, Repr

/-- State of the external `PreProcessor(sentence)` object as consumed by
the orchestrator: the token list, per-token feature vectors (abstract type
`F`), and the set of indices singularised during normalisation. -/
structure PreProcessed (F : Type) : Type where
  tokenized_sentence : List String
  sentence_features : List F
  singularised_indices : List Nat

/-- State of the external `PostProcessor(...)` object: the constructor
arguments it was built from, together with its `.parsed` result (abstract
type `P`). -/
structure PostProcessed (P : Type) : Type where
  sentence : String
  tokens : List String
  labels : List String
  scores : List ℚ
  opts : Opts
  parsed : P

/-- The `ParserDebugInfo` dataclass returned by `inspect_parser_en`:
the sentence together with the `PreProcessor` and `PostProcessor` objects
(the `tagger` field holds the process-wide oracle handle, abstracted to a
unit here since the oracle's queries live in `Env`). -/
structure ParserDebugInfo (F P : Type) : Type where
  sentence : String
  preProcessor : PreProcessed F
  postProcessor : PostProcessed P
  tagger : Unit

/-- The external collaborators of the orchestrator, fixed for a call:
the preprocessor, the loaded oracle's `tag` and `marginal` queries,
`pluralise_units`, and the `PostProcessor`'s result-building. -/
structure Env (F P : Type) : Type where
  preprocess : String → PreProcessed F
  tag : List F → List String
  marginal : String → Nat → ℚ
  pluralise_units : String → String
  build : String → List String → List String → List ℚ → Opts → P

/-- Constructing the `PostProcessor` object: it records its arguments and
computes the structured `.parsed` result via the external builder. -/
def mkPostProcessor {F P : Type} (env : Env F P) (sentence : String)
    (tokens labels : List String) (scores : List ℚ) (opts : Opts) :
    PostProcessed P :=
  { sentence := sentence, tokens := tokens, labels := labels,
    scores := scores, opts := opts,
    parsed := env.build sentence tokens labels scores opts }

/-- Embedding of the re-pluralisation loop of `parse_ingredient_en`
(lines 74-78): for each singularised index whose label is not `"UNIT"`,
replace the token with `pluralise_units` of its current value. -/
def restore_plurals (pluralise : String → String) (labels : List String)
    (sing : List Nat) (tokens : List String) : List String :=
  sing.foldl
    (fun ts idx =>
      if labels.getD idx "" ≠ "UNIT"
      then ts.set idx (pluralise (ts.getD idx ""))
      else ts)
    tokens

/-- Embedding of the body of `parse_ingredient_en` up to and including the
construction of the `PostProcessor` (the oracle is already loaded; the
lazy load is modelled separately by `load_model_if_not_loaded`). -/
def parse_postprocessed {F P : Type} (env : Env F P) (sentence : String)
    (opts : Opts) : PostProcessed P :=
  let processed_sentence := env.preprocess sentence
  let tokens := processed_sentence.tokenized_sentence
  let labels := env.tag processed_sentence.sentence_features
  let scores := labels.enum.map (fun p => env.marginal p.2 p.1)
  let tokens :=
    restore_plurals env.pluralise_units labels
      processed_sentence.singularised_indices tokens
  let p :=
    if labels.all (fun label => label ≠ "NAME")
    then guess_ingredient_name env.marginal labels scores
    else (labels, scores)
  mkPostProcessor env sentence tokens p.1 p.2 opts

/-- Embedding of `parse_ingredient_en`: the pipeline followed by
`return postprocessed_sentence.parsed`. -/
def parse_ingredient_en {F P : Type} (env : Env F P) (sentence : String)
    (opts : Opts) : P :=
  (parse_postprocessed env sentence opts).parsed

/-- Embedding of `inspect_parser_en`: the same pipeline body duplicated
(as in the source), returning the `ParserDebugInfo` bundle instead of the
parsed result. -/
def inspect_parser_en {F P : Type} (env : Env F P) (sentence : String)
    (opts : Opts) : ParserDebugInfo F P :=
  let processed_sentence := env.preprocess sentence
  let tokens := processed_sentence.tokenized_sentence
  let labels := env.tag processed_sentence.sentence_features
  let scores := labels.enum.map (fun p => env.marginal p.2 p.1)
  let tokens :=
    restore_plurals env.pluralise_units labels
      processed_sentence.singularised_indices tokens
  let p :=
    if labels.all (fun label => label ≠ "NAME")
    then guess_ingredient_name env.marginal labels scores
    else (labels, scores)
  let postprocessed_sentence := mkPostProcessor env sentence tokens p.1 p.2 opts
  { sentence := sentence, preProcessor := processed_sentence,
    postProcessor := postprocessed_sentence, tagger := () }

/-! Section: Helper lemmas about the stable length sort -/

theorem length_insertByLen (g : List Nat) (s : List (List Nat)) :
    (insertByLen g s).length = s.length + 1 := by
  induction s with
  | nil => rfl
  | cons h t ih =>
    simp only [insertByLen]
    split
    · rfl
    · simp [ih]

theorem sortedByLen_ne_nil {l : List (List Nat)} (h : l ≠ []) :
    sortedByLen l ≠ [] := by
  cases l with
  | nil => exact absurd rfl h
  | cons g t =>
    have hlen : (sortedByLen (g :: t)).length = (sortedByLen t).length + 1 := by
      simp [sortedByLen, length_insertByLen]
    intro hnil
    rw [hnil] at hlen
    simp at hlen

theorem headD_insertByLen (g h : List Nat) (t : List (List Nat)) :
    (insertByLen g (h :: t)).headD [] =
      if g.length ≤ h.length then g else h := by
  simp only [insertByLen]
  split <;> rfl

theorem headD_sortedByLen_cons (g : List Nat) (t : List (List Nat))
    (ht : t ≠ []) :
    (sortedByLen (g :: t)).headD [] =
      if g.length ≤ ((sortedByLen t).headD []).length then g
      else (sortedByLen t).headD [] := by
  obtain ⟨h, t', he⟩ := List.exists_cons_of_ne_nil (sortedByLen_ne_nil ht)
  simp only [sortedByLen]
  rw [he, headD_insertByLen]
  simp

/-- The head of the stable ascending length sort is a member of minimal
length, and it is the earliest member attaining that length: every group
strictly before it in the original order is strictly longer. -/
theorem sortedByLen_headD_spec (l : List (List Nat)) (h : l ≠ []) :
    (sortedByLen l).headD [] ∈ l ∧
    (∀ g ∈ l, ((sortedByLen l).headD []).length ≤ g.length) ∧
    ∃ pre post, l = pre ++ ((sortedByLen l).headD []) :: post ∧
      ∀ g ∈ pre, ((sortedByLen l).headD []).length < g.length := by
  induction l with
  | nil => exact absurd rfl h
  | cons g t ih =>
    cases t with
    | nil =>
      refine ⟨by simp [sortedByLen, insertByLen], ?_, [], [], rfl, by simp⟩
      intro x hx
      simp [sortedByLen, insertByLen] at hx ⊢
      simp [hx]
    | cons g' t' =>
      have ht : g' :: t' ≠ [] := by simp
      obtain ⟨hmem, hmin, pre, post, hsplit, hpre⟩ := ih ht
      rw [headD_sortedByLen_cons g _ ht]
      set m := (sortedByLen (g' :: t')).headD [] with hm
      by_cases hle : g.length ≤ m.length
      · refine ⟨by simp [hle], ?_, [], g' :: t', by simp [hle], by simp⟩
        intro x hx
        rcases List.mem_cons.mp hx with hx | hx
        · simp [hle, hx]
        · simp only [if_pos hle]
          exact le_trans hle (hmin x hx)
      · refine ⟨by simp only [if_neg hle]; exact List.mem_cons_of_mem _ hmem, ?_, ?_⟩
        · intro x hx
          rcases List.mem_cons.mp hx with hx | hx
          · simp only [if_neg hle, hx]
            exact le_of_lt (Nat.lt_of_not_le hle)
          · simp only [if_neg hle]
            exact hmin x hx
        · refine ⟨g :: pre, post, ?_, ?_⟩
          · simp only [if_neg hle]
            rw [List.cons_append, ← hsplit]
          · intro x hx
            rcases List.mem_cons.mp hx with hx | hx
            · simp only [if_neg hle, hx]
              exact Nat.lt_of_not_le hle
            · simp only [if_neg hle]
              exact hpre x hx

/-! Section: Helper lemmas about consecutive-index grouping -/

theorem nil_not_mem_group_consecutive_idx (l : List Nat) :
    [] ∉ group_consecutive_idx l := by
  induction l with
  | nil => simp [group_consecutive_idx]
  | cons i rest ih =>
    cases hrec : group_consecutive_idx rest with
    | nil => simp [group_consecutive_idx, hrec]
    | cons g0 gs =>
      rw [hrec] at ih
      cases g0 with
      | nil => exact absurd (List.mem_cons_self [] gs) ih
      | cons j g =>
        simp only [group_consecutive_idx, hrec]
        split
        · intro hmem
          rcases List.mem_cons.mp hmem with hmem | hmem
          · exact List.noConfusion hmem
          · exact ih (List.mem_cons_of_mem _ hmem)
        · intro hmem
          rcases List.mem_cons.mp hmem with hmem | hmem
          · exact List.noConfusion hmem
          · exact ih hmem

theorem group_consecutive_idx_ne_nil {l : List Nat} (h : l ≠ []) :
    group_consecutive_idx l ≠ [] := by
  cases l with
  | nil => exact absurd rfl h
  | cons i rest =>
    cases hrec : group_consecutive_idx rest with
    | nil => simp [group_consecutive_idx, hrec]
    | cons g0 gs =>
      cases g0 with
      | nil => simp [group_consecutive_idx, hrec]
      | cons j g =>
        simp only [group_consecutive_idx, hrec]
        split <;> simp

theorem mem_of_mem_group_consecutive_idx {l : List Nat}
    {g : List Nat} {i : Nat} (hg : g ∈ group_consecutive_idx l)
    (hi : i ∈ g) : i ∈ l := by
  induction l generalizing g with
  | nil => simp [group_consecutive_idx] at hg
  | cons a rest ih =>
    cases hrec : group_consecutive_idx rest with
    | nil =>
      simp only [group_consecutive_idx, hrec] at hg
      simp at hg
      rw [hg] at hi
      simp at hi
      simp [hi]
    | cons g0 gs =>
      cases g0 with
      | nil =>
        simp only [group_consecutive_idx, hrec] at hg
        rcases List.mem_cons.mp hg with hg | hg
        · rw [hg] at hi
          simp at hi
          simp [hi]
        · exact List.mem_cons_of_mem _ (ih (hrec ▸ hg) hi)
      | cons j gj =>
        simp only [group_consecutive_idx, hrec] at hg
        split at hg
        · rcases List.mem_cons.mp hg with hg | hg
          · rw [hg] at hi
            rcases List.mem_cons.mp hi with hi | hi
            · simp [hi]
            · exact List.mem_cons_of_mem _
                (ih (hrec ▸ List.mem_cons_self _ _) hi)
          · exact List.mem_cons_of_mem _
              (ih (hrec ▸ List.mem_cons_of_mem _ hg) hi)
        · rcases List.mem_cons.mp hg with hg | hg
          · rw [hg] at hi
            simp at hi
            simp [hi]
          · exact List.mem_cons_of_mem _ (ih (hrec ▸ hg) hi)

/-! Section: Helper lemmas about batch in-place updates (folds of List.set) -/

theorem foldl_set_length {α : Type} (idxs : List Nat) (f : Nat → α)
    (l : List α) :
    (idxs.foldl (fun a j => a.set j (f j)) l).length = l.length := by
  induction idxs generalizing l with
  | nil => rfl
  | cons j rest ih => simp [List.foldl_cons, ih, List.length_set]

theorem foldl_set_getElem?_not_mem {α : Type} {idxs : List Nat}
    {i : Nat} (h : i ∉ idxs) (f : Nat → α) (l : List α) :
    (idxs.foldl (fun a j => a.set j (f j)) l)[i]? = l[i]? := by
  induction idxs generalizing l with
  | nil => rfl
  | cons j rest ih =>
    have hij : j ≠ i := fun he => h (he ▸ List.mem_cons_self j rest)
    have hrest : i ∉ rest := fun hm => h (List.mem_cons_of_mem _ hm)
    simp only [List.foldl_cons]
    rw [ih hrest, List.getElem?_set_ne hij]

theorem foldl_set_getElem?_mem {α : Type} {idxs : List Nat} {i : Nat}
    (hmem : i ∈ idxs) (f : Nat → α) (l : List α) (hlt : i < l.length) :
    (idxs.foldl (fun a j => a.set j (f j)) l)[i]? = some (f i) := by
  induction idxs generalizing l with
  | nil => simp at hmem
  | cons j rest ih =>
    simp only [List.foldl_cons]
    by_cases hr : i ∈ rest
    · exact ih hr _ (by simp [List.length_set, hlt])
    · have hij : i = j := by
        rcases List.mem_cons.mp hmem with h | h
        · exact h
        · exact absurd h hr
      subst hij
      rw [foldl_set_getElem?_not_mem hr]
      exact List.getElem?_set_eq_of_lt _ hlt

theorem foldl_pair_set {α β : Type} (idxs : List Nat) (f : Nat → α)
    (g : Nat → β) (a : List α) (b : List β) :
    idxs.foldl (fun p j => (p.1.set j (f j), p.2.set j (g j))) (a, b) =
      (idxs.foldl (fun x j => x.set j (f j)) a,
       idxs.foldl (fun x j => x.set j (g j)) b) := by
  induction idxs generalizing a b with
  | nil => rfl
  | cons j rest ih => simp [List.foldl_cons, ih]

/-! Section: Helper lemmas about the candidate indices -/

theorem name_scores_length (marginal : String → Nat → ℚ)
    (labels : List String) :
    (name_scores_of marginal labels).length = labels.length := by
  simp [name_scores_of]

theorem name_scores_getD {marginal : String → Nat → ℚ}
    {labels : List String} {i : Nat} (h : i < labels.length) :
    (name_scores_of marginal labels).getD i 0 = marginal "NAME" i := by
  rw [List.getD_eq_getElem?_getD]
  simp [name_scores_of, List.getElem?_range h]

theorem mem_candidate_indices {marginal : String → Nat → ℚ}
    {labels : List String} {i : Nat} :
    i ∈ candidate_indices_of marginal labels ↔
      i < labels.length ∧ 1/5 ≤ marginal "NAME" i := by
  simp only [candidate_indices_of, List.mem_filter, List.mem_range,
    name_scores_length, decide_eq_true_eq]
  constructor
  · rintro ⟨hlt, hge⟩
    exact ⟨hlt, by rwa [name_scores_getD hlt] at hge⟩
  · rintro ⟨hlt, hge⟩
    exact ⟨hlt, by rwa [name_scores_getD hlt]⟩

theorem selected_run_mem_groups {marginal : String → Nat → ℚ}
    {labels : List String}
    (h : candidate_indices_of marginal labels ≠ []) :
    selected_run marginal labels ∈
      group_consecutive_idx (candidate_indices_of marginal labels) :=
  (sortedByLen_headD_spec _ (group_consecutive_idx_ne_nil h)).1

theorem selected_run_subset {marginal : String → Nat → ℚ}
    {labels : List String}
    (h : candidate_indices_of marginal labels ≠ []) {i : Nat}
    (hi : i ∈ selected_run marginal labels) :
    i ∈ candidate_indices_of marginal labels :=
  mem_of_mem_group_consecutive_idx (selected_run_mem_groups h) hi

theorem selected_run_ne_nil {marginal : String → Nat → ℚ}
    {labels : List String}
    (h : candidate_indices_of marginal labels ≠ []) :
    selected_run marginal labels ≠ [] := by
  intro hnil
  exact nil_not_mem_group_consecutive_idx _ (hnil ▸ selected_run_mem_groups h)

/-! Section: Helper lemmas about plural restoration -/

theorem restore_plurals_cons (pluralise : String → String)
    (labels : List String) (j : Nat) (rest : List Nat)
    (tokens : List String) :
    restore_plurals pluralise labels (j :: rest) tokens =
      restore_plurals pluralise labels rest
        (if labels.getD j "" ≠ "UNIT"
         then tokens.set j (pluralise (tokens.getD j ""))
         else tokens) := rfl

theorem restore_plurals_getElem?_not_mem
    (pluralise : String → String) (labels : List String)
    {sing : List Nat} {idx : Nat} (h : idx ∉ sing) (tokens : List String) :
    (restore_plurals pluralise labels sing tokens)[idx]? = tokens[idx]? := by
  induction sing generalizing tokens with
  | nil => rfl
  | cons j rest ih =>
    have hij : j ≠ idx := fun he => h (he ▸ List.mem_cons_self j rest)
    have hrest : idx ∉ rest := fun hm => h (List.mem_cons_of_mem _ hm)
    rw [restore_plurals_cons]
    by_cases hu : labels.getD j "" ≠ "UNIT"
    · rw [if_pos hu, ih hrest, List.getElem?_set_ne hij]
    · rw [if_neg hu]
      exact ih hrest _

theorem restore_plurals_getElem?_mem
    (pluralise : String → String) (labels : List String)
    {sing : List Nat} (hnd : sing.Nodup) {idx : Nat} (h : idx ∈ sing)
    (tokens : List String) :
    (restore_plurals pluralise labels sing tokens)[idx]? =
      if labels.getD idx "" ≠ "UNIT"
      then (tokens[idx]?).map pluralise
      else tokens[idx]? := by
  induction sing generalizing tokens with
  | nil => simp at h
  | cons j rest ih =>
    rw [restore_plurals_cons]
    rcases List.mem_cons.mp h with he | hr
    · subst he
      have hrest : idx ∉ rest := (List.nodup_cons.mp hnd).1
      rw [restore_plurals_getElem?_not_mem pluralise labels hrest]
      by_cases hu : labels.getD idx "" ≠ "UNIT"
      · rw [if_pos hu, if_pos hu]
        cases hlt : tokens[idx]? with
        | none =>
          have hge : tokens.length ≤ idx := by
            by_contra hc
            rw [List.getElem?_eq_getElem (Nat.lt_of_not_le hc)] at hlt
            exact Option.noConfusion hlt
          rw [List.getElem?_eq_none (by simpa [List.length_set] using hge)]
          rfl
        | some v =>
          have hl : idx < tokens.length := by
            by_contra hc
            rw [List.getElem?_eq_none (Nat.le_of_not_lt hc)] at hlt
            exact Option.noConfusion hlt
          rw [List.getElem?_set_eq_of_lt _ hl]
          have : tokens.getD idx "" = v := by
            rw [List.getD_eq_getElem?_getD, hlt]
            rfl
          rw [this]
          rfl
      · rw [if_neg hu, if_neg hu]
    · have hnd' : rest.Nodup := (List.nodup_cons.mp hnd).2
      by_cases hu : labels.getD j "" ≠ "UNIT"
      · rw [if_pos hu, ih hnd' hr]
        have hij : j ≠ idx := by
          intro he
          exact (List.nodup_cons.mp hnd).1 (he ▸ hr)
        rw [List.getElem?_set_ne hij]
      · rw [if_neg hu]
        exact ih hnd' hr _

/-! Section: Helper lemmas about guess_ingredient_name -/

theorem guess_eq_of_candidates_nil {marginal : String → Nat → ℚ}
    {labels : List String} (scores : List ℚ)
    (h : candidate_indices_of marginal labels = []) :
    guess_ingredient_name marginal labels scores = (labels, scores) := by
  simp only [guess_ingredient_name, if_pos h]

theorem guess_eq_of_candidates_ne_nil {marginal : String → Nat → ℚ}
    {labels : List String} (scores : List ℚ)
    (h : candidate_indices_of marginal labels ≠ []) :
    guess_ingredient_name marginal labels scores =
      ((selected_run marginal labels).foldl
         (fun a j => a.set j ((fun _ => "NAME") j)) labels,
       (selected_run marginal labels).foldl
         (fun a j => a.set j ((name_scores_of marginal labels).getD j 0))
         scores) := by
  simp only [guess_ingredient_name, if_neg h]
  exact foldl_pair_set (selected_run marginal labels) (fun _ => "NAME")
    (fun j => (name_scores_of marginal labels).getD j 0) labels scores

theorem guess_fst_length (marginal : String → Nat → ℚ)
    (labels : List String) (scores : List ℚ) :
    (guess_ingredient_name marginal labels scores).1.length =
      labels.length := by
  by_cases h : candidate_indices_of marginal labels = []
  · rw [guess_eq_of_candidates_nil scores h]
  · rw [guess_eq_of_candidates_ne_nil scores h]
    exact foldl_set_length _ _ _

theorem guess_snd_length (marginal : String → Nat → ℚ)
    (labels : List String) (scores : List ℚ) :
    (guess_ingredient_name marginal labels scores).2.length =
      scores.length := by
  by_cases h : candidate_indices_of marginal labels = []
  · rw [guess_eq_of_candidates_nil scores h]
  · rw [guess_eq_of_candidates_ne_nil scores h]
    exact foldl_set_length _ _ _

theorem guess_fst_getElem?_not_mem {marginal : String → Nat → ℚ}
    {labels : List String} (scores : List ℚ) {j : Nat}
    (hj : j ∉ selected_run marginal labels) :
    (guess_ingredient_name marginal labels scores).1[j]? = labels[j]? := by
  by_cases h : candidate_indices_of marginal labels = []
  · rw [guess_eq_of_candidates_nil scores h]
  · rw [guess_eq_of_candidates_ne_nil scores h]
    exact foldl_set_getElem?_not_mem hj _ _

theorem guess_snd_getElem?_not_mem {marginal : String → Nat → ℚ}
    {labels : List String} (scores : List ℚ) {j : Nat}
    (hj : j ∉ selected_run marginal labels) :
    (guess_ingredient_name marginal labels scores).2[j]? = scores[j]? := by
  by_cases h : candidate_indices_of marginal labels = []
  · rw [guess_eq_of_candidates_nil scores h]
  · rw [guess_eq_of_candidates_ne_nil scores h]
    exact foldl_set_getElem?_not_mem hj _ _

theorem mem_of_getElem?_eq_some {α : Type} {l : List α} {i : Nat} {a : α}
    (h : l[i]? = some a) : a ∈ l := by
  have hlt : i < l.length := by
    by_contra hc
    rw [List.getElem?_eq_none (Nat.le_of_not_lt hc)] at h
    exact Option.noConfusion h
  rw [List.getElem?_eq_getElem hlt] at h
  have hmem := List.getElem_mem hlt
  rwa [Option.some_inj.mp h] at hmem

/-- Whenever some candidate index exists, the heuristic's output labels
contain `"NAME"`: the selected run is a non-empty set of candidate
positions (all below `labels.length`) and every one of them is set to
`"NAME"`. -/
theorem guess_fst_mem_NAME {marginal : String → Nat → ℚ}
    {labels : List String} (scores : List ℚ)
    (h : candidate_indices_of marginal labels ≠ []) :
    "NAME" ∈ (guess_ingredient_name marginal labels scores).1 := by
  obtain ⟨i, sel', hsel⟩ :=
    List.exists_cons_of_ne_nil (selected_run_ne_nil h)
  have hi : i ∈ selected_run marginal labels := by
    rw [hsel]
    exact List.mem_cons_self i sel'
  have hlt : i < labels.length :=
    (mem_candidate_indices.mp (selected_run_subset h hi)).1
  have hget : (guess_ingredient_name marginal labels scores).1[i]? =
      some "NAME" := by
    rw [guess_eq_of_candidates_ne_nil scores h]
    exact foldl_set_getElem?_mem hi _ labels hlt
  exact mem_of_getElem?_eq_some hget

/-! Section: Concrete fixtures used by witnesses and counterexamples -/

/-- A NAME-marginal with two candidate runs: positions 0 and 2,3 score 0.3,
position 1 scores 0, so the maximal runs are `[0]` (length 1) and `[2, 3]`
(length 2). -/
def mRuns : String → Nat → ℚ := fun _ i => [3/10, 0, 3/10, 3/10].getD i 0

/-- The NAME-confidences of the spec's threshold test:
`[0.05, 0.25, 0.3, 0.1]`. -/
def mC6 : String → Nat → ℚ := fun _ i => [1/20, 1/4, 3/10, 1/10].getD i 0

/-- A NAME-marginal that scores every position 0 (below the threshold). -/
def mZero : String → Nat → ℚ := fun _ _ => 0

/-- A NAME-marginal that scores every position 1 (above the threshold). -/
def mOne : String → Nat → ℚ := fun _ _ => 1

/-- A NAME-marginal scoring 1 at position 0 and 0 elsewhere; it agrees
with `mOne` on every position of a one-token sentence. -/
def mFirst : String → Nat → ℚ := fun _ i => if i = 0 then 1 else 0

/-- A concrete one-token environment whose oracle labels the token
`"OTHER"` but gives it NAME-confidence 1. -/
def envW : Env Unit Unit where
  preprocess := fun _ =>
    { tokenized_sentence := ["salt"], sentence_features := [()],
      singularised_indices := [] }
  tag := fun _ => ["OTHER"]
  marginal := fun _ _ => 1
  pluralise_units := fun s => s
  build := fun _ _ _ _ _ => ()

/-- The default option values of the public entry points. -/
def defaultOpts : Opts :=
  { discard_isolated_stop_words := true, string_units := false,
    imperial_units := false }

/-! Section: Claim theorems -/

/-- C1. The claim says `guess_ingredient_name` selects the longest maximal
run of consecutive candidate indices.  The code contradicts its own
comment ("Take longest group"): `sorted(groups, key=len)[0]` takes the
shortest.  At NAME-confidences `[0.3, 0, 0.3, 0.3]` the maximal runs are
`[0]` and `[2, 3]`; the code labels only position 0 and leaves the longest
run `[2, 3]` unlabelled, with its scores unchanged. -/
theorem c1_shortest_run_selected_not_longest :
    group_consecutive_idx
        (candidate_indices_of mRuns ["OTHER", "OTHER", "OTHER", "OTHER"]) =
      [[0], [2, 3]] ∧
    guess_ingredient_name mRuns ["OTHER", "OTHER", "OTHER", "OTHER"]
        [0, 0, 0, 0] =
      (["NAME", "OTHER", "OTHER", "OTHER"], [3/10, 0, 0, 0]) := by
  constructor
  · norm_num [candidate_indices_of, name_scores_of, group_consecutive_idx,
      mRuns, List.range_succ, List.getD]
  · norm_num [guess_ingredient_name, candidate_indices_of, name_scores_of,
      selected_run, group_consecutive_idx, sortedByLen, insertByLen, mRuns,
      List.range_succ, List.getD]
    decide

/-- C2. For every non-empty candidate set, the run selected by
`guess_ingredient_name` (the head of the ascending stable sort of the
maximal consecutive runs) is a maximal run of candidate indices of
minimal length, and among the runs of minimal length it is the
earliest-occurring one: every run listed before it is strictly longer. -/
theorem c2_selected_run_is_earliest_shortest (marginal : String → Nat → ℚ)
    (labels : List String)
    (h : candidate_indices_of marginal labels ≠ []) :
    selected_run marginal labels ∈
      group_consecutive_idx (candidate_indices_of marginal labels) ∧
    (∀ g ∈ group_consecutive_idx (candidate_indices_of marginal labels),
      (selected_run marginal labels).length ≤ g.length) ∧
    ∃ pre post,
      group_consecutive_idx (candidate_indices_of marginal labels) =
        pre ++ (selected_run marginal labels) :: post ∧
      ∀ g ∈ pre, (selected_run marginal labels).length < g.length := by
  exact sortedByLen_headD_spec _ (group_consecutive_idx_ne_nil h)

/-- C2 witness: at NAME-confidences `[0.3, 0, 0.3, 0.3]` the candidate set
is the non-empty `[0, 2, 3]` and the selected run satisfies the C2
properties. -/
theorem c2_witness :
    candidate_indices_of mRuns ["OTHER", "OTHER", "OTHER", "OTHER"] ≠ [] ∧
    (selected_run mRuns ["OTHER", "OTHER", "OTHER", "OTHER"] ∈
      group_consecutive_idx
        (candidate_indices_of mRuns ["OTHER", "OTHER", "OTHER", "OTHER"]) ∧
    (∀ g ∈ group_consecutive_idx
        (candidate_indices_of mRuns ["OTHER", "OTHER", "OTHER", "OTHER"]),
      (selected_run mRuns ["OTHER", "OTHER", "OTHER", "OTHER"]).length ≤
        g.length) ∧
    ∃ pre post,
      group_consecutive_idx
          (candidate_indices_of mRuns ["OTHER", "OTHER", "OTHER", "OTHER"]) =
        pre ++ (selected_run mRuns ["OTHER", "OTHER", "OTHER", "OTHER"]) ::
          post ∧
      ∀ g ∈ pre,
        (selected_run mRuns ["OTHER", "OTHER", "OTHER", "OTHER"]).length <
          g.length) := by
  have h : candidate_indices_of mRuns ["OTHER", "OTHER", "OTHER", "OTHER"] ≠
      [] := by
    norm_num [candidate_indices_of, name_scores_of, mRuns, List.range_succ,
      List.getD]
    decide
  exact ⟨h, c2_selected_run_is_earliest_shortest mRuns _ h⟩

/-- C7. When every position's NAME-confidence is below 0.2 the candidate
set is empty and `guess_ingredient_name` returns its two inputs unchanged
(the empty-labels case is the instance `labels = []`). -/
theorem c7_no_candidates_noop (marginal : String → Nat → ℚ)
    (labels : List String) (scores : List ℚ)
    (h : ∀ i, i < labels.length → marginal "NAME" i < 1/5) :
    guess_ingredient_name marginal labels scores = (labels, scores) := by
  apply guess_eq_of_candidates_nil
  apply List.eq_nil_iff_forall_not_mem.mpr
  intro i hi
  obtain ⟨hlt, hge⟩ := mem_candidate_indices.mp hi
  exact absurd hge (not_le_of_lt (h i hlt))

/-- C7 witness: the no-op on a one-token input with NAME-confidence 0 and
on the empty input. -/
theorem c7_witness :
    (∀ i, i < (["salt"] : List String).length → mZero "NAME" i < 1/5) ∧
    guess_ingredient_name mZero ["salt"] [1/2] = (["salt"], [1/2]) ∧
    guess_ingredient_name mZero [] [] = ([], []) := by
  have h : ∀ i, i < (["salt"] : List String).length →
      mZero "NAME" i < 1/5 := by
    intro i _
    norm_num [mZero]
  refine ⟨h, c7_no_candidates_noop mZero ["salt"] [1/2] h, ?_⟩
  exact c7_no_candidates_noop mZero [] [] (by intro i hi; simp at hi)

/-- C3. After tagging, plural restoration and (when no token was tagged
NAME) name recovery, the labels handed to the `PostProcessor` contain
`"NAME"` whenever some position has NAME-confidence at least 0.2: either
the tagger already produced a NAME label, or the recovery heuristic runs
on a non-empty candidate set and labels its selected run. -/
theorem c3_pipeline_contains_name {F P : Type} (env : Env F P)
    (sentence : String) (opts : Opts) (i : Nat)
    (hi : i < (env.tag (env.preprocess sentence).sentence_features).length)
    (hc : 1/5 ≤ env.marginal "NAME" i) :
    "NAME" ∈ (parse_postprocessed env sentence opts).labels := by
  by_cases hall : (env.tag (env.preprocess sentence).sentence_features).all
      (fun label => label ≠ "NAME")
  · have hlab : (parse_postprocessed env sentence opts).labels =
        (guess_ingredient_name env.marginal
          (env.tag (env.preprocess sentence).sentence_features)
          ((env.tag (env.preprocess sentence).sentence_features).enum.map
            (fun p => env.marginal p.2 p.1))).1 := by
      simp only [parse_postprocessed, mkPostProcessor, if_pos hall]
    rw [hlab]
    apply guess_fst_mem_NAME
    exact List.ne_nil_of_mem (mem_candidate_indices.mpr ⟨hi, hc⟩)
  · have hlab : (parse_postprocessed env sentence opts).labels =
        env.tag (env.preprocess sentence).sentence_features := by
      simp only [parse_postprocessed, mkPostProcessor, if_neg hall]
    rw [hlab]
    rw [List.all_eq_true] at hall
    push_neg at hall
    obtain ⟨x, hx, hne⟩ := hall
    have : x = "NAME" := by simpa using hne
    exact this ▸ hx

/-- C3 witness: in the one-token environment `envW` the oracle tags
`"OTHER"` but gives NAME-confidence 1, so the pipeline's final labels
contain `"NAME"`. -/
theorem c3_witness :
    0 < (envW.tag (envW.preprocess "salt to taste").sentence_features).length ∧
    1/5 ≤ envW.marginal "NAME" 0 ∧
    "NAME" ∈ (parse_postprocessed envW "salt to taste" defaultOpts).labels := by
  refine ⟨by decide, by norm_num [envW], ?_⟩
  exact c3_pipeline_contains_name envW "salt to taste" defaultOpts 0
    (by decide) (by norm_num [envW])

/-- C4. The plural-restoration loop: every singularised index whose label
is not UNIT gets its token rewritten to the pluralised form of the
current token (per the spec, `pluralise_units` returns the original
pre-normalisation plural text); singularised indices labelled UNIT and
indices outside the singularised set keep their tokens. -/
theorem c4_restore_plurals_spec (pluralise : String → String)
    (labels tokens : List String) (sing : List Nat) (hnd : sing.Nodup)
    (idx : Nat) :
    (idx ∈ sing → labels.getD idx "" ≠ "UNIT" →
      (restore_plurals pluralise labels sing tokens)[idx]? =
        (tokens[idx]?).map pluralise) ∧
    (idx ∈ sing → labels.getD idx "" = "UNIT" →
      (restore_plurals pluralise labels sing tokens)[idx]? =
        tokens[idx]?) ∧
    (idx ∉ sing →
      (restore_plurals pluralise labels sing tokens)[idx]? =
        tokens[idx]?) := by
  refine ⟨?_, ?_, ?_⟩
  · intro hm hu
    rw [restore_plurals_getElem?_mem pluralise labels hnd hm, if_pos hu]
  · intro hm hu
    rw [restore_plurals_getElem?_mem pluralise labels hnd hm,
      if_neg (show ¬labels.getD idx "" ≠ "UNIT" from not_not_intro hu)]
  · intro hm
    exact restore_plurals_getElem?_not_mem pluralise labels hm tokens

/-- C4 witness: tokens `["cup", "cup", "pinch"]` with labels
`["COMMENT", "UNIT", "QTY"]` and singularised indices `[0, 1]`: index 0
(not UNIT) is pluralised, index 1 (UNIT) is kept singular, index 2 (not
singularised) is untouched. -/
theorem c4_witness :
    ((0 : Nat) ∈ [0, 1] ∧
      (["COMMENT", "UNIT", "QTY"] : List String).getD 0 "" ≠ "UNIT" ∧
      (restore_plurals (fun s => s ++ "s") ["COMMENT", "UNIT", "QTY"] [0, 1]
        ["cup", "cup", "pinch"])[0]? = some "cups") ∧
    ((1 : Nat) ∈ [0, 1] ∧
      (["COMMENT", "UNIT", "QTY"] : List String).getD 1 "" = "UNIT" ∧
      (restore_plurals (fun s => s ++ "s") ["COMMENT", "UNIT", "QTY"] [0, 1]
        ["cup", "cup", "pinch"])[1]? = some "cup") ∧
    ((2 : Nat) ∉ [0, 1] ∧
      (restore_plurals (fun s => s ++ "s") ["COMMENT", "UNIT", "QTY"] [0, 1]
        ["cup", "cup", "pinch"])[2]? = some "pinch") := by
  refine ⟨⟨by decide, by decide, ?_⟩, ⟨by decide, by decide, ?_⟩,
    by decide, ?_⟩
  · have h := (c4_restore_plurals_spec (fun s => s ++ "s")
      ["COMMENT", "UNIT", "QTY"] ["cup", "cup", "pinch"] [0, 1]
      (by decide) 0).1 (by decide) (by decide)
    simpa using h
  · have h := (c4_restore_plurals_spec (fun s => s ++ "s")
      ["COMMENT", "UNIT", "QTY"] ["cup", "cup", "pinch"] [0, 1]
      (by decide) 1).2.1 (by decide) (by decide)
    simpa using h
  · have h := (c4_restore_plurals_spec (fun s => s ++ "s")
      ["COMMENT", "UNIT", "QTY"] ["cup", "cup", "pinch"] [0, 1]
      (by decide) 2).2.2 (by decide)
    simpa using h

/-- C5. `load_model_if_not_loaded` probes `TAGGER.info()`: a successful
probe means no load and an unchanged tagger; a `RuntimeError` probe means
exactly the model-open runs; a non-`RuntimeError` failure of the probed
body propagates out of the try/except; and a successful call leaves a
tagger whose probe succeeds, so a second call is a no-op (initialization
happens at most once over N calls). -/
theorem c5_load_model_spec (t : Tagger) (modelOk : Bool) :
    (t.info = Except.ok () →
      load_model_if_not_loaded t modelOk = Except.ok t) ∧
    (t.info = Except.error PyErr.runtimeError →
      load_model_if_not_loaded t modelOk = Tagger.openModel modelOk) ∧
    (∀ (body : Except PyErr Tagger)
       (handler : Unit → Except PyErr Tagger) (e : PyErr),
       e ≠ PyErr.runtimeError → body = Except.error e →
       tryExceptRuntimeError body handler = Except.error e) ∧
    (∀ t2 : Tagger, load_model_if_not_loaded t modelOk = Except.ok t2 →
      t2.info = Except.ok () ∧
      load_model_if_not_loaded t2 modelOk = Except.ok t2) := by
  refine ⟨?_, ?_, ?_, ?_⟩
  · intro hok
    simp [load_model_if_not_loaded, tryExceptRuntimeError, Except.map, hok]
  · intro herr
    simp [load_model_if_not_loaded, tryExceptRuntimeError, Except.map, herr]
  · intro body handler e he hb
    subst hb
    cases e with
    | runtimeError => exact absurd rfl he
    | other => rfl
  · intro t2 hok
    obtain ⟨loaded⟩ := t
    cases loaded with
    | true =>
      have ht2 : t2 = { loaded := true } := by
        simpa [load_model_if_not_loaded, tryExceptRuntimeError,
          Tagger.info, Except.map] using hok.symm
      subst ht2
      exact ⟨rfl, rfl⟩
    | false =>
      cases modelOk with
      | true =>
        have ht2 : t2 = { loaded := true } := by
          simpa [load_model_if_not_loaded, tryExceptRuntimeError,
            Tagger.info, Tagger.openModel, Except.map] using hok.symm
        subst ht2
        exact ⟨rfl, rfl⟩
      | false =>
        exact absurd hok (by simp [load_model_if_not_loaded,
          tryExceptRuntimeError, Tagger.info, Tagger.openModel, Except.map])

/-- C5 witness: a loaded tagger probes successfully and the call is a
no-op; an unloaded tagger with an intact artifact is loaded. -/
theorem c5_witness :
    Tagger.info { loaded := true } = Except.ok () ∧
    load_model_if_not_loaded { loaded := true } true =
      Except.ok { loaded := true } ∧
    Tagger.info { loaded := false } = Except.error PyErr.runtimeError ∧
    load_model_if_not_loaded { loaded := false } true =
      Except.ok { loaded := true } := by
  refine ⟨rfl, (c5_load_model_spec { loaded := true } true).1 rfl, rfl, ?_⟩
  have h := (c5_load_model_spec { loaded := false } true).2.1 rfl
  simpa [Tagger.openModel] using h

/-- C6. With no NAME label among the four input labels and
NAME-confidences `[0.05, 0.25, 0.3, 0.1]`, the heuristic labels exactly
positions 1 and 2 (the single run at or above 0.2) with `"NAME"`, sets
their scores to 0.25 and 0.3, and leaves positions 0 and 3 unchanged. -/
theorem c6_threshold_run (l0 l1 l2 l3 : String) (s0 s1 s2 s3 : ℚ)
    (hname : ∀ lbl ∈ [l0, l1, l2, l3], lbl ≠ "NAME") :
    guess_ingredient_name mC6 [l0, l1, l2, l3] [s0, s1, s2, s3] =
      ([l0, "NAME", "NAME", l3], [s0, 1/4, 3/10, s3]) := by
  norm_num [guess_ingredient_name, candidate_indices_of, name_scores_of,
    selected_run, group_consecutive_idx, sortedByLen, insertByLen, mC6,
    List.range_succ, List.getD]
  exact fun hcon => absurd hcon (by decide)

/-- C6 witness: the theorem at concrete labels and scores. -/
theorem c6_witness :
    (∀ lbl ∈ (["QTY", "UNIT", "COMMENT", "COMMENT"] : List String),
      lbl ≠ "NAME") ∧
    guess_ingredient_name mC6 ["QTY", "UNIT", "COMMENT", "COMMENT"]
        [1/2, 1/2, 1/2, 1/2] =
      (["QTY", "NAME", "NAME", "COMMENT"], [1/2, 1/4, 3/10, 1/2]) :=
  ⟨by decide,
   c6_threshold_run "QTY" "UNIT" "COMMENT" "COMMENT" (1/2) (1/2) (1/2) (1/2)
     (by decide)⟩

/-- C8. With a non-empty candidate set, `guess_ingredient_name` keeps the
lengths of both sequences and leaves every position outside the selected
run with its original label and score. -/
theorem c8_frame (marginal : String → Nat → ℚ) (labels : List String)
    (scores : List ℚ)
    (h : candidate_indices_of marginal labels ≠ []) :
    (guess_ingredient_name marginal labels scores).1.length =
      labels.length ∧
    (guess_ingredient_name marginal labels scores).2.length =
      scores.length ∧
    ∀ j, j ∉ selected_run marginal labels →
      (guess_ingredient_name marginal labels scores).1[j]? = labels[j]? ∧
      (guess_ingredient_name marginal labels scores).2[j]? = scores[j]? := by
  exact ⟨guess_fst_length marginal labels scores,
    guess_snd_length marginal labels scores,
    fun j hj => ⟨guess_fst_getElem?_not_mem scores hj,
      guess_snd_getElem?_not_mem scores hj⟩⟩

/-- C8 witness: the frame property at NAME-confidences
`[0.3, 0, 0.3, 0.3]`. -/
theorem c8_witness :
    candidate_indices_of mRuns ["A", "B", "C", "D"] ≠ [] ∧
    ((guess_ingredient_name mRuns ["A", "B", "C", "D"]
        [1, 2, 3, 4]).1.length = 4 ∧
     (guess_ingredient_name mRuns ["A", "B", "C", "D"]
        [1, 2, 3, 4]).2.length = 4 ∧
     ∀ j, j ∉ selected_run mRuns ["A", "B", "C", "D"] →
       (guess_ingredient_name mRuns ["A", "B", "C", "D"]
          [1, 2, 3, 4]).1[j]? = (["A", "B", "C", "D"] : List String)[j]? ∧
       (guess_ingredient_name mRuns ["A", "B", "C", "D"]
          [1, 2, 3, 4]).2[j]? = ([1, 2, 3, 4] : List ℚ)[j]?) := by
  have h : candidate_indices_of mRuns ["A", "B", "C", "D"] ≠ [] := by
    norm_num [candidate_indices_of, name_scores_of, mRuns, List.range_succ,
      List.getD]
    decide
  exact ⟨h, c8_frame mRuns ["A", "B", "C", "D"] [1, 2, 3, 4] h⟩

/-- C9. `inspect_parser_en` runs the same pipeline as
`parse_ingredient_en`: its debug bundle wraps the original sentence, the
preprocessor state, and exactly the `PostProcessor` object (same tokens,
labels, scores, options and parsed result) that `parse_ingredient_en`
builds, whose `parsed` field is `parse_ingredient_en`'s return value. -/
theorem c9_parse_inspect_agree {F P : Type} (env : Env F P)
    (sentence : String) (opts : Opts) :
    (inspect_parser_en env sentence opts).sentence = sentence ∧
    (inspect_parser_en env sentence opts).preProcessor =
      env.preprocess sentence ∧
    (inspect_parser_en env sentence opts).postProcessor =
      parse_postprocessed env sentence opts ∧
    (inspect_parser_en env sentence opts).postProcessor.parsed =
      parse_ingredient_en env sentence opts :=
  ⟨rfl, rfl, rfl, rfl⟩

/-- C10 counterexample: with equal labels and equal scores but different
oracle NAME-marginals, `guess_ingredient_name` returns different results,
so it is not a pure function of its two explicit arguments alone. -/
theorem c10_counterexample :
    guess_ingredient_name mZero ["OTHER"] [1/2] ≠
      guess_ingredient_name mOne ["OTHER"] [1/2] := by
  norm_num [guess_ingredient_name, candidate_indices_of, name_scores_of,
    selected_run, group_consecutive_idx, sortedByLen, insertByLen, mZero,
    mOne, List.range_succ, List.getD]

/-- C10 amended: `guess_ingredient_name` is a pure function of its labels
and scores arguments together with the oracle's NAME-marginals on the
label positions: two invocations with equal labels, equal scores, and
NAME-marginals agreeing on every position below the labels' length return
equal results. -/
theorem c10_pure_given_marginals (m1 m2 : String → Nat → ℚ)
    (labels : List String) (scores : List ℚ)
    (h : ∀ i, i < labels.length → m1 "NAME" i = m2 "NAME" i) :
    guess_ingredient_name m1 labels scores =
      guess_ingredient_name m2 labels scores := by
  have hns : name_scores_of m1 labels = name_scores_of m2 labels := by
    unfold name_scores_of
    exact List.map_congr_left (fun i hi => h i (List.mem_range.mp hi))
  have hcand : candidate_indices_of m1 labels =
      candidate_indices_of m2 labels := by
    unfold candidate_indices_of
    rw [hns]
  have hsel : selected_run m1 labels = selected_run m2 labels := by
    unfold selected_run
    rw [hcand]
  unfold guess_ingredient_name
  rw [hns, hcand, hsel]

/-- C10 amended witness: `mOne` and `mFirst` agree on position 0, the
only position of a one-token input, so the heuristic's results agree. -/
theorem c10_witness :
    (∀ i, i < (["OTHER"] : List String).length →
      mOne "NAME" i = mFirst "NAME" i) ∧
    guess_ingredient_name mOne ["OTHER"] [0] =
      guess_ingredient_name mFirst ["OTHER"] [0] := by
  have h : ∀ i, i < (["OTHER"] : List String).length →
      mOne "NAME" i = mFirst "NAME" i := by
    intro i hi
    simp at hi
    simp [mOne, mFirst, hi]
  exact ⟨h, c10_pure_given_marginals mOne mFirst ["OTHER"] [0] h⟩

end IngredientParser
